import Mathlib

set_option maxRecDepth 8000

/-!
Verification of the Cryptosystem-Library repository: a shallow embedding of
`src/src/cryptosystems.py` (class `ElGamal`), `src/src/user.py` (class `User`),
`src/src/attacker.py` (class `Attacker`) and `src/helpers.py` (`get_inverse`,
imported by the source as `utils.get_inverse`), together with theorems
settling the specification claims.

Conventions of the embedding:
* Python non-negative integers become `Nat`; modular reduction is the explicit
  `% p` that the source writes.  The discrete-log solvers return Python `int`
  (with `-1` as the not-found sentinel), embedded as `Int`.
* Python strings used as user names stay `String`; plaintext messages become
  lists of code points (`List Nat`; Python `ord`/`chr` are the identity on
  code points, so a message string is exactly its list of ordinals).
* The Python dict `self.pks` becomes an ordered association list with
  insert-or-update semantics (`dictInsert` / `dictGet`).
* Each `randint(1, p-1)` draw is passed as an explicit parameter.
* Exceptions become `Except Err`; methods that mutate state return the
  (possibly partially mutated) state alongside the result, matching the fact
  that a propagating Python exception leaves prior mutations in place.
-/

/-- Error kinds raised by the reference implementation (`raise Exception(...)`
sites, plus `attrError`/`indexError` for the `AttributeError`/`IndexError`
a `None` result or an empty-list index would raise in Python). -/
inductive Err where
  | invalidParam
  | invalidName
  | unknownUser
  | missingKey
  | symbolTooLarge
  | emptyMessage
  | sameParty
  | attrError
  | indexError
  deriving Repr, DecidableEq

deriving instance DecidableEq for Except

/-- Embeds `get_inverse` from `src/helpers.py`: `pow(n, p - 2, p)`,
the Fermat inverse of `n` modulo the prime `p`. -/
def get_inverse (n p : Nat) : Nat := n ^ (p - 2) % p

/-- Embeds `ElGamal._is_valid_prime` (src/src/cryptosystems.py:121-142):
the check passes iff `n` is nonzero (the `n < 0` branch cannot arise for a
natural number) and no `i` with `2 ≤ i < n` divides `n` (trial division over
`range(2, n)`). -/
def is_valid_prime (n : Nat) : Prop :=
  n ≠ 0 ∧ ∀ i < n, 2 ≤ i → ¬ (i ∣ n)

instance (n : Nat) : Decidable (is_valid_prime n) := by
  unfold is_valid_prime; infer_instance

/-- Embeds `ElGamal._is_valid_generator` (src/src/cryptosystems.py:144-181):
the check passes iff `g ≥ 1` (the negative branch cannot arise) and the
residues `g^i % p` for `i = 1..p-1` are pairwise distinct — the source raises
at the first repeated residue, and when no repeat occurs it has seen exactly
`p - 1` distinct values, so the final `nb_seen != p - 1` test also passes. -/
def is_valid_generator (p g : Nat) : Prop :=
  1 ≤ g ∧ ((List.range' 1 (p - 1)).map (fun i => g ^ i % p)).Nodup

instance (p g : Nat) : Decidable (is_valid_generator p g) := by
  unfold is_valid_generator; infer_instance

/-- Loop body of `Attacker.brute_force` (src/src/attacker.py:90-93):
scan the exponents `i` in order and return the first `i` with `g^i % p = b`,
or `-1` when the scan is exhausted. -/
def brute_force_scan (p g b : Nat) : List Nat → Int
  | [] => -1
  | i :: is => if g ^ i % p = b then (i : Int) else brute_force_scan p g b is

/-- Embeds `Attacker.brute_force` (src/src/attacker.py:76-93): the scanned
exponents are `range(1, p)`, i.e. `i = 1, …, p-1`. -/
def brute_force (p g b : Nat) : Int := brute_force_scan p g b (List.range' 1 (p - 1))

/-- Climb `s, s+1, …` while `(s+1)^2` still fits below `p`; `fuel` bounds the
number of steps (any `fuel ≥ sqrt p` gives the exact floor square root). -/
def sqrt_from (p : Nat) : Nat → Nat → Nat
  | 0, s => s
  | f + 1, s => if (s + 1) * (s + 1) ≤ p then sqrt_from p f (s + 1) else s

/-- Floor square root, embedding the Python expression `int(p**0.5)` from
`Attacker.shanks_bsgs` (exact for the machine-size moduli the system uses). -/
def nat_sqrt (p : Nat) : Nat := sqrt_from p p 0

/-- Embeds the Python idiom `if y in baby_steps: baby_steps.index(y)` used by
`Attacker.shanks_bsgs`: the index of the first occurrence of `y`, if any. -/
def list_index (l : List Nat) (y : Nat) : Option Nat :=
  match l with
  | [] => none
  | a :: rest => if a = y then some 0 else (list_index rest y).map (· + 1)

/-- Giant-step loop of `Attacker.shanks_bsgs` (src/src/attacker.py:115-120):
for each `j` in turn compute `y = b * ginv^j % p` and return `i + j*n` at the
first baby-step hit, `-1` if the whole list of `j`s is exhausted. -/
def bsgs_search (p b ginv n : Nat) (baby : List Nat) : List Nat → Int
  | [] => -1
  | j :: js =>
    match list_index baby ((b * ginv ^ j) % p) with
    | some i => ((i + j * n : Nat) : Int)
    | none => bsgs_search p b ginv n baby js

/-- Embeds `Attacker.shanks_bsgs` (src/src/attacker.py:95-120):
`n = int(p**0.5) + 1`, baby steps `g^i % p` for `i = 0..n-1`,
`g_inv_n = get_inverse(g**n, p)`, and the giant-step scan over
`j = 0..n-1`. -/
def shanks_bsgs (p g b : Nat) : Int :=
  bsgs_search p b (get_inverse (g ^ (nat_sqrt p + 1)) p) (nat_sqrt p + 1)
    ((List.range (nat_sqrt p + 1)).map (fun i => g ^ i % p))
    (List.range (nat_sqrt p + 1))


/-! ### The cryptosystem state model -/

/-- Embeds class `User` (src/src/user.py): one participant's mutable state.
Messages are lists of code points. -/
structure User where
  name : String
  sk : Nat
  received_messages : List (List Nat)
  nb_received_messages : Nat
  sent_messages : List (List Nat)
  nb_sent_messages : Nat
  connections : List String
  deriving Repr, DecidableEq

/-- A fresh user exactly as `User.__init__` builds it. -/
def mkUser (name : String) (sk : Nat) : User :=
  ⟨name, sk, [], 0, [], 0, []⟩

/-- Lookup in the `pks` dict: value stored at key `k`, if present. -/
def dictGet (d : List (String × Nat)) (k : String) : Option Nat :=
  match d with
  | [] => none
  | (k1, v) :: rest => if k1 = k then some v else dictGet rest k

/-- Insert-or-update in the `pks` dict: `d[k] = v` keeps an existing key's
position, otherwise appends (Python dicts preserve insertion order). -/
def dictInsert (d : List (String × Nat)) (k : String) (v : Nat) :
    List (String × Nat) :=
  match d with
  | [] => [(k, v)]
  | (k1, v1) :: rest =>
    if k1 = k then (k1, v) :: rest else (k1, v1) :: dictInsert rest k v

/-- First user with the given name, as the `for user in self.users` scans
of the source find it. -/
def findUser (users : List User) (name : String) : Option User :=
  users.find? (fun u => u.name == name)

/-- Transform the first user with the given name, leaving the rest alone —
the effect of mutating the object found by a `for user in self.users`
scan that breaks or returns at the first match. -/
def updateFirst (users : List User) (name : String) (f : User → User) :
    List User :=
  match users with
  | [] => []
  | u :: rest =>
    if u.name = name then f u :: rest else u :: updateFirst rest name f

/-- Embeds class `ElGamal` (src/src/cryptosystems.py): the system state.
A queue entry is `(dst, (src, chars))`, exactly the tuple `send_message`
enqueues. -/
structure ElGamal where
  p : Nat
  g : Nat
  pks : List (String × Nat)
  users : List User
  nb_users : Nat
  message_queue : List (String × (String × List (Nat × Nat)))
  debug : Bool
  deriving Repr, DecidableEq

/-- Embeds `ElGamal.__init__` (src/src/cryptosystems.py:74-117): validate
`p` and `g`, then store `g % p` and empty registries. -/
def mkElGamal (p g : Nat) (debug : Bool) : Except Err ElGamal :=
  if is_valid_prime p ∧ is_valid_generator p g then
    .ok { p := p, g := g % p, pks := [], users := [], nb_users := 0,
          message_queue := [], debug := debug }
  else .error .invalidParam

/-- Embeds `ElGamal.add_user` (src/src/cryptosystems.py:297-327) with the
`randint(1, p-1)` draw passed in as `sk`.  Note the faithful quirk of
`_is_valid_username` (lines 192-197): the `raise` sits inside the
`if self.debug:` block, so an empty name only fails when `debug` is set;
`_is_valid_sk` cannot fail on a natural draw. -/
def ElGamal.add_user (s : ElGamal) (name : String) (sk : Nat) :
    Except Err Unit × ElGamal :=
  if name = "" ∧ s.debug = true then (.error .invalidName, s)
  else
    (.ok (), { s with
      pks := dictInsert s.pks name ((s.g ^ sk) % s.p),
      users := s.users ++ [mkUser name sk],
      nb_users := s.nb_users + 1 })

/-- Embeds `ElGamal.get_user` (src/src/cryptosystems.py:356-383):
`_is_valid_username` (debug-guarded), `_user_exists` (a membership test on
the `pks` dict, not on the user list), then the first matching user — or
`none` when the dict has a stale entry with no backing user, in which case
the source prints a message and implicitly returns `None`. -/
def ElGamal.get_user (s : ElGamal) (name : String) : Except Err (Option User) :=
  if name = "" ∧ s.debug = true then .error .invalidName
  else if (dictGet s.pks name).isNone then .error .unknownUser
  else .ok (findUser s.users name)

/-- Embeds `ElGamal.get_user_pk` (src/src/cryptosystems.py:385-415): after
`_user_exists` passes, the dict lookup cannot be `None`, so the
`_is_valid_pk` guard never fires. -/
def ElGamal.get_user_pk (s : ElGamal) (name : String) : Except Err Nat :=
  if name = "" ∧ s.debug = true then .error .invalidName
  else match dictGet s.pks name with
    | none => .error .unknownUser
    | some pk => .ok pk

/-- Embeds `ElGamal.get_new_sk` (src/src/cryptosystems.py:417-453): set the
first matching user's secret key to the fresh draw and refresh the public
key dict entry `pks[name] = g^draw % p`. -/
def ElGamal.get_new_sk (s : ElGamal) (name : String) (draw : Nat) :
    Except Err Nat × ElGamal :=
  if name = "" ∧ s.debug = true then (.error .invalidName, s)
  else if (dictGet s.pks name).isNone then (.error .unknownUser, s)
  else
    (.ok draw, { s with
      users := updateFirst s.users name (fun u => { u with sk := draw }),
      pks := dictInsert s.pks name ((s.g ^ draw) % s.p) })

/-- Embeds `ElGamal.encrypt_char` (src/src/cryptosystems.py:457-502):
`_is_valid_char` rejects only ordinals strictly above `p`; then the sender
is fetched, the sender's key is rotated (`get_new_sk`), `c1` is the
sender's fresh public key and `c2 = ord(char) * dst_pk ** src_user.sk % p`
— where `src_user` is the very object `get_new_sk` just mutated, so its
`sk` is `draw`.  If the `pks` dict has a stale sender entry with no backing
user, `src_user` is `None` and the `c2` computation raises only after the
key rotation has gone through. -/
def ElGamal.encrypt_char (s : ElGamal) (src dst : String) (m : Nat)
    (draw : Nat) : Except Err (Nat × Nat) × ElGamal :=
  if s.p < m then (.error .symbolTooLarge, s)
  else match s.get_user src with
    | .error e => (.error e, s)
    | .ok srcUser =>
      match s.get_new_sk src draw with
      | (.error e, s1) => (.error e, s1)
      | (.ok _, s1) =>
        match s1.get_user_pk src with
        | .error e => (.error e, s1)
        | .ok c1 =>
          match s1.get_user_pk dst with
          | .error e => (.error e, s1)
          | .ok dst_pk =>
            match srcUser with
            | none => (.error .attrError, s1)
            | some _ => (.ok (c1, (m * dst_pk ^ draw) % s1.p), s1)

/-- The per-character loop of `send_message`, one fresh draw per character.
(The source draws inside `get_new_sk`; supplying fewer draws than
characters is a model artifact reported as `attrError` and excluded by
hypothesis wherever it matters.) -/
def ElGamal.encrypt_loop :
    ElGamal → String → String → List Nat → List Nat →
    Except Err (List (Nat × Nat)) × ElGamal
  | s, _, _, [], _ => (.ok [], s)
  | s, _, _, _ :: _, [] => (.error .attrError, s)
  | s, src, dst, c :: cs, d :: ds =>
    match s.encrypt_char src dst c d with
    | (.error e, s1) => (.error e, s1)
    | (.ok cc, s1) =>
      match s1.encrypt_loop src dst cs ds with
      | (.error e, s2) => (.error e, s2)
      | (.ok rest, s2) => (.ok (cc :: rest), s2)

/-- The sender-side bookkeeping of `send_message` (lines 551-554): append
the plaintext to `sent_messages`, bump the counter, record the connection. -/
def sendLogUpdate (m : List Nat) (dst : String) (u : User) : User :=
  { u with sent_messages := u.sent_messages ++ [m],
           nb_sent_messages := u.nb_sent_messages + 1,
           connections := u.connections ++ [dst] }

/-- Embeds `ElGamal.send_message` (src/src/cryptosystems.py:504-560):
up-front validators, the per-character encryption loop (each character
rotating the sender's key), then the log updates on the sender object and
`message_queue.insert(0, (dst, (src, chars)))`. -/
def ElGamal.send_message (s : ElGamal) (src dst : String) (m : List Nat)
    (draws : List Nat) : Except Err (String × List (Nat × Nat)) × ElGamal :=
  if m = [] then (.error .emptyMessage, s)
  else if src = "" ∧ s.debug = true then (.error .invalidName, s)
  else if (dictGet s.pks src).isNone then (.error .unknownUser, s)
  else if dst = "" ∧ s.debug = true then (.error .invalidName, s)
  else if (dictGet s.pks dst).isNone then (.error .unknownUser, s)
  else if src = dst then (.error .sameParty, s)
  else
    match s.encrypt_loop src dst m draws with
    | (.error e, s1) => (.error e, s1)
    | (.ok chars, s1) =>
      (.ok (src, chars), { s1 with
        users := updateFirst s1.users src (sendLogUpdate m dst),
        message_queue := (dst, (src, chars)) :: s1.message_queue })

/-- Embeds `ElGamal.decrypt_char` (src/src/cryptosystems.py:562-603):
`dec = get_inverse(c1 ** dst_user.sk, p) * c2 % p`, a pure function of the
receiver's current key. -/
def ElGamal.decrypt_char (s : ElGamal) (dst : String) (c : Nat × Nat) :
    Except Err Nat :=
  if dst = "" ∧ s.debug = true then .error .invalidName
  else if (dictGet s.pks dst).isNone then .error .unknownUser
  else match findUser s.users dst with
    | none => .error .attrError
    | some u => .ok ((get_inverse (c.1 ^ u.sk) s.p * c.2) % s.p)

/-- The per-character loop of `receive_message`. -/
def ElGamal.decrypt_chars (s : ElGamal) (dst : String) :
    List (Nat × Nat) → Except Err (List Nat)
  | [] => .ok []
  | c :: cs =>
    match s.decrypt_char dst c with
    | .error e => .error e
    | .ok d =>
      match s.decrypt_chars dst cs with
      | .error e => .error e
      | .ok ds => .ok (d :: ds)

/-- Embeds `ElGamal.receive_message` (src/src/cryptosystems.py:605-653):
validators, per-character decryption, appending to the receiver's log, and
`message_queue.pop()` — which removes the LAST entry, raising `IndexError`
on an empty queue after the log update already happened. -/
def ElGamal.receive_message (s : ElGamal) (dst : String)
    (encrypted : String × List (Nat × Nat)) : Except Err (List Nat) × ElGamal :=
  if dst = "" ∧ s.debug = true then (.error .invalidName, s)
  else if (dictGet s.pks dst).isNone then (.error .unknownUser, s)
  else match s.decrypt_chars dst encrypted.2 with
    | .error e => (.error e, s)
    | .ok m =>
      match findUser s.users dst with
      | none => (.error .attrError, s)
      | some _ =>
        match s.message_queue with
        | [] => (.error .indexError,
            { s with users := updateFirst s.users dst (fun u =>
                { u with received_messages := u.received_messages ++ [m],
                         nb_received_messages := u.nb_received_messages + 1 }) })
        | _ :: _ => (.ok m,
            { s with users := updateFirst s.users dst (fun u =>
                { u with received_messages := u.received_messages ++ [m],
                         nb_received_messages := u.nb_received_messages + 1 }),
                     message_queue := s.message_queue.dropLast })

/-- Drop the first user with the given name, or `none` when no user
matches. -/
def removeFirst : List User → String → Option (List User)
  | [], _ => none
  | u :: rest, name =>
    if u.name = name then some rest
    else match removeFirst rest name with
      | none => none
      | some r => some (u :: r)

/-- Embeds `ElGamal.remove_user` (src/src/cryptosystems.py:329-354): note
that it never deletes the `pks` dict entry; when `pks` has the name but the
user list does not (a stale entry), it prints a message and returns
normally.  (`nb_users -= 1` runs only in the found branch, where the list
is non-empty, so the truncated `Nat` subtraction is exact on reachable
states.) -/
def ElGamal.remove_user (s : ElGamal) (name : String) :
    Except Err Unit × ElGamal :=
  if name = "" ∧ s.debug = true then (.error .invalidName, s)
  else if (dictGet s.pks name).isNone then (.error .unknownUser, s)
  else match removeFirst s.users name with
    | some rest => (.ok (), { s with users := rest, nb_users := s.nb_users - 1 })
    | none => (.ok (), s)

/-! ### The attacker model -/

/-- Embeds class `Attacker` (src/src/attacker.py), keeping the state the
claims are about: the append-only intercepted-messages log. -/
structure Attacker where
  name : String
  intercepted_messages : List (String × String × List Nat)
  deriving Repr, DecidableEq

/-- Embeds enum `AttackType` (src/src/attacker.py:12-14). -/
inductive AttackType where
  | bruteForce
  | shanksBsgs
  deriving Repr, DecidableEq

/-- Dispatch through `self.attacks[attack_type.value]`. -/
def run_attack (t : AttackType) (p g b : Nat) : Int :=
  match t with
  | .bruteForce => brute_force p g b
  | .shanksBsgs => shanks_bsgs p g b

/-- Embeds `Attacker.intercept_message` (src/src/attacker.py:45-74):
peek `message_queue[-1]` (the LAST list element — `send_message` inserts at
index 0, so this is the oldest entry), fetch the recipient's current public
key, run the chosen solver on it, decrypt every symbol with the recovered
key via `chr(c2 * get_inverse(c1**sk % p, p) % p)`, and append
`(src, dst, plaintext)` to the intercepted log.  The queue itself is never
modified.  A `-1` sentinel from the solver would make `c1 ** -1` a float
and the subsequent `pow` raise, modeled as `attrError`. -/
def intercept_message (a : Attacker) (s : ElGamal) (t : AttackType) :
    Except Err (List Nat) × Attacker × ElGamal :=
  match s.message_queue.getLast? with
  | none => (.error .indexError, a, s)
  | some (dst, (src, msg)) =>
    match s.get_user_pk dst with
    | .error e => (.error e, a, s)
    | .ok dst_pk =>
      match run_attack t s.p s.g dst_pk with
      | .negSucc _ => (.error .attrError, a, s)
      | .ofNat rsk =>
        (.ok (msg.map (fun c => (c.2 * get_inverse (c.1 ^ rsk % s.p) s.p) % s.p)),
         { a with intercepted_messages := a.intercepted_messages ++
             [(src, dst, msg.map (fun c =>
               (c.2 * get_inverse (c.1 ^ rsk % s.p) s.p) % s.p))] },
         s)

/-- The interception scenario of the spec (§8) and claim C4: construct the
system with `p = 257, g = 3`, register `"Alice"` and `"Bob"` (secret draws
`ska`, `skb`), send `"Hi"` (code points `[72, 105]`, key-rotation draws
`k1`, `k2`) from Alice to Bob, then intercept with the brute-force attack.
Returns the recovered plaintext and the final intercepted-messages log. -/
def runScenario (ska skb k1 k2 : Nat) :
    Option (List Nat × List (String × String × List Nat)) :=
  match mkElGamal 257 3 true with
  | .error _ => none
  | .ok s0 =>
    match s0.add_user "Alice" ska with
    | (.error _, _) => none
    | (.ok _, s1) =>
      match s1.add_user "Bob" skb with
      | (.error _, _) => none
      | (.ok _, s2) =>
        match s2.send_message "Alice" "Bob" [72, 105] [k1, k2] with
        | (.error _, _) => none
        | (.ok _, s3) =>
          match intercept_message ⟨"Eve", []⟩ s3 .bruteForce with
          | (.error _, _, _) => none
          | (.ok dec, a1, _) => some (dec, a1.intercepted_messages)

/-- The non-key content of a user record: everything except the rotating
secret key. -/
def userLog (u : User) :
    String × List (List Nat) × Nat × List (List Nat) × Nat × List String :=
  (u.name, u.received_messages, u.nb_received_messages, u.sent_messages,
   u.nb_sent_messages, u.connections)

/-- The key-mutating operations named by claim C6, with their `randint`
draws made explicit. -/
inductive Op where
  | addUser (name : String) (sk : Nat)
  | getNewSk (name : String) (sk : Nat)
  | encryptChar (src dst : String) (m : Nat) (sk : Nat)
  | sendMessage (src dst : String) (m : List Nat) (sks : List Nat)
  deriving Repr, DecidableEq

/-- Run one operation, keeping the final state whether or not the
operation raised (a propagating exception leaves prior mutations behind). -/
def applyOp (s : ElGamal) : Op → ElGamal
  | .addUser name sk => (s.add_user name sk).2
  | .getNewSk name sk => (s.get_new_sk name sk).2
  | .encryptChar src dst m sk => (s.encrypt_char src dst m sk).2
  | .sendMessage src dst m sks => (s.send_message src dst m sks).2

/-- Run a sequence of operations. -/
def runOps (s : ElGamal) (ops : List Op) : ElGamal := ops.foldl applyOp s

/-- The KeyPair invariant of claim C6: every registered user's public-key
map entry equals `g ^ (that user's current secret key) mod p`. -/
def pk_invariant (s : ElGamal) : Prop :=
  ∀ u ∈ s.users, dictGet s.pks u.name = some ((s.g ^ u.sk) % s.p)

instance (s : ElGamal) : Decidable (pk_invariant s) := by
  unfold pk_invariant; infer_instance

/-- No two registered users share a name. -/
def names_nodup (s : ElGamal) : Prop := (s.users.map User.name).Nodup

instance (s : ElGamal) : Decidable (names_nodup s) := by
  unfold names_nodup; infer_instance

/-- Freshness discipline along a run: every `addUser` uses a name that is
not currently registered (the duplicate-registration loophole of the
reference is exactly what breaks the claim as stated). -/
def ok_ops (s : ElGamal) : List Op → Prop
  | [] => True
  | op :: rest =>
    (match op with
     | .addUser name _ => ∀ u ∈ s.users, u.name ≠ name
     | _ => True) ∧ ok_ops (applyOp s op) rest

instance ok_ops_dec (s : ElGamal) : (ops : List Op) → Decidable (ok_ops s ops)
  | [] => isTrue trivial
  | op :: rest =>
    haveI : Decidable (ok_ops (applyOp s op) rest) :=
      ok_ops_dec (applyOp s op) rest
    (by unfold ok_ops; cases op <;> exact inferInstance :
      Decidable (ok_ops s (op :: rest)))


/-! ### Arithmetic facts about the embedded helpers -/

lemma sqrt_from_spec (p : Nat) : ∀ (f s : Nat), s * s ≤ p →
    p < (s + f + 1) * (s + f + 1) →
    sqrt_from p f s * sqrt_from p f s ≤ p ∧
    p < (sqrt_from p f s + 1) * (sqrt_from p f s + 1) := by
  intro f
  induction f with
  | zero =>
    intro s h1 h2
    simpa [sqrt_from] using ⟨h1, by simpa using h2⟩
  | succ f ih =>
    intro s h1 h2
    simp only [sqrt_from]
    by_cases h : (s + 1) * (s + 1) ≤ p
    · rw [if_pos h]
      have h2' : p < (s + 1 + f + 1) * (s + 1 + f + 1) := by
        have e : s + 1 + f + 1 = s + (f + 1) + 1 := by omega
        rw [e]; exact h2
      exact ih (s + 1) h h2'
    · rw [if_neg h]
      exact ⟨h1, by omega⟩

lemma nat_sqrt_le (p : Nat) : nat_sqrt p * nat_sqrt p ≤ p := by
  have := sqrt_from_spec p p 0 (by simp) (by nlinarith)
  exact this.1

lemma lt_nat_sqrt_succ (p : Nat) : p < (nat_sqrt p + 1) * (nat_sqrt p + 1) := by
  have := sqrt_from_spec p p 0 (by simp) (by nlinarith)
  exact this.2

/-- For `p ≥ 3` the floor square root stays within the exponent range
`[0, p-2]` used by the generator-injectivity argument. -/
lemma nat_sqrt_le_sub_two (p : Nat) (hp : 3 ≤ p) : nat_sqrt p ≤ p - 2 := by
  have h1 := nat_sqrt_le p
  rcases Nat.lt_or_ge (nat_sqrt p) 2 with h | h
  · omega
  · have h2 : 2 * nat_sqrt p ≤ nat_sqrt p * nat_sqrt p :=
      Nat.mul_le_mul_right (nat_sqrt p) h
    omega

/-! ### Generator injectivity -/

/-- A valid generator separates the exponents `1..p-1`: the residues
`g^i % p` are pairwise distinct there. -/
lemma generator_inj (p g : Nat) (hgen : is_valid_generator p g) :
    ∀ i j : Nat, 1 ≤ i → i ≤ p - 1 → 1 ≤ j → j ≤ p - 1 →
    g ^ i % p = g ^ j % p → i = j := by
  intro i j hi1 hi2 hj1 hj2 hij
  have hp1 : 1 ≤ p := by omega
  have hmi : i ∈ List.range' 1 (p - 1) := by
    rw [List.mem_range'_1]; omega
  have hmj : j ∈ List.range' 1 (p - 1) := by
    rw [List.mem_range'_1]; omega
  exact List.inj_on_of_nodup_map hgen.2 hmi hmj hij

/-! ### Brute-force solver: first-match characterisation -/

lemma brute_force_scan_range' (p g b x : Nat) (hx : g ^ x % p = b) :
    ∀ (m i : Nat), i ≤ x → x < i + m →
    (∀ k, i ≤ k → k < x → g ^ k % p ≠ b) →
    brute_force_scan p g b (List.range' i m) = (x : Int) := by
  intro m
  induction m with
  | zero => intro i h1 h2 _; omega
  | succ m ih =>
    intro i h1 h2 h3
    rw [List.range'_succ]
    rcases Nat.eq_or_lt_of_le h1 with rfl | hlt
    · simp [brute_force_scan, hx]
    · have hne : g ^ i % p ≠ b := h3 i (le_refl i) hlt
      simp only [brute_force_scan, hne, if_false]
      exact ih (i + 1) hlt (by omega) (fun k hk1 hk2 => h3 k (by omega) hk2)

/-- The brute-force solver returns the true exponent: proved for any valid
generator and any `x ∈ [1, p-1]`. -/
lemma brute_force_solves (p g x : Nat) (hgen : is_valid_generator p g)
    (hx1 : 1 ≤ x) (hx2 : x ≤ p - 1) :
    brute_force p g (g ^ x % p) = (x : Int) := by
  have hp2 : 2 ≤ p := by omega
  unfold brute_force
  apply brute_force_scan_range' p g (g ^ x % p) x rfl (p - 1) 1 hx1 (by omega)
  intro k hk1 hk2 heq
  have := generator_inj p g hgen k x hk1 (by omega) hx1 hx2 heq
  omega

/-- No residue in the range `1..p-1` repeats, so for `p ≥ 3` a valid
generator cannot be a multiple of `p` (otherwise `g^1` and `g^2` would
both reduce to `0`). -/
lemma generator_not_dvd (p g : Nat) (hp : 3 ≤ p) (hgen : is_valid_generator p g) :
    ¬ p ∣ g := by
  intro hdvd
  have h1 : g ^ 1 % p = 0 := Nat.mod_eq_zero_of_dvd (by simpa using hdvd)
  have h2 : g ^ 2 % p = 0 :=
    Nat.mod_eq_zero_of_dvd (Dvd.dvd.trans hdvd (dvd_pow_self g (by omega)))
  have := generator_inj p g hgen 1 2 (by omega) (by omega) (by omega) (by omega)
    (h1.trans h2.symm)
  omega

/-- Injectivity of `i ↦ g^i % p` extended to the exponent range `[0, p-2]`:
a collision there lifts to a collision in `[1, p-1]` after multiplying both
sides by `g`. -/
lemma generator_inj_zero (p g : Nat) (hp : 3 ≤ p) (hgen : is_valid_generator p g) :
    ∀ a b : Nat, a ≤ p - 2 → b ≤ p - 2 → g ^ a % p = g ^ b % p → a = b := by
  intro a b ha hb hab
  have hsucc : g ^ (a + 1) % p = g ^ (b + 1) % p := by
    rw [pow_succ, pow_succ, Nat.mul_mod, hab, ← Nat.mul_mod]
  have := generator_inj p g hgen (a + 1) (b + 1) (by omega) (by omega)
    (by omega) (by omega) hsucc
  omega

/-! ### First-occurrence characterisation of `list_index` -/

lemma list_index_spec (y : Nat) :
    ∀ (l : List Nat) (i0 : Nat), l[i0]? = some y →
    (∀ i, i < i0 → l[i]? ≠ some y) → list_index l y = some i0 := by
  intro l
  induction l with
  | nil => intro i0 h0 _; simp at h0
  | cons a rest ih =>
    intro i0 h0 hmin
    cases i0 with
    | zero =>
      simp at h0
      simp [list_index, h0]
    | succ i =>
      have hane : a ≠ y := by
        have := hmin 0 (by omega)
        simpa using this
      simp only [list_index, if_neg hane]
      have h0' : rest[i]? = some y := by simpa using h0
      have hmin' : ∀ k, k < i → rest[k]? ≠ some y := by
        intro k hk
        have := hmin (k + 1) (by omega)
        simpa using this
      rw [ih i h0' hmin']
      rfl

lemma list_index_none (y : Nat) :
    ∀ (l : List Nat), (∀ a ∈ l, a ≠ y) → list_index l y = none := by
  intro l
  induction l with
  | nil => intro _; rfl
  | cons a rest ih =>
    intro h
    have hane : a ≠ y := h a (by simp)
    simp only [list_index, if_neg hane]
    rw [ih (fun b hb => h b (by simp [hb]))]
    rfl

/-! ### Bridging `Nat`-level modular arithmetic with `ZMod p` -/

/-- Two naturals below `p` that agree in `ZMod p` are equal. -/
lemma nat_eq_of_zmod_eq (p a b : Nat) (hp : 0 < p) (ha : a < p) (hb : b < p)
    (h : (a : ZMod p) = (b : ZMod p)) : a = b := by
  haveI : NeZero p := ⟨by omega⟩
  have := congrArg ZMod.val h
  rwa [ZMod.val_cast_of_lt ha, ZMod.val_cast_of_lt hb] at this


/-! ### Baby-Step Giant-Step: exactness of the giant-step scan -/

lemma bsgs_search_exact (p b ginv n x i0 j0 : Nat) (baby : List Nat)
    (hx_eq : i0 + j0 * n = x) (hj0 : j0 < n)
    (hmatch : list_index baby ((b * ginv ^ j0) % p) = some i0)
    (hnomatch : ∀ j, j < j0 → list_index baby ((b * ginv ^ j) % p) = none) :
    ∀ (m j : Nat), j + m = n → j ≤ j0 →
    bsgs_search p b ginv n baby (List.range' j m) = (x : Int) := by
  intro m
  induction m with
  | zero => intro j h1 h2; omega
  | succ m ih =>
    intro j h1 h2
    rw [List.range'_succ]
    rcases Nat.eq_or_lt_of_le h2 with rfl | hlt
    · simp only [bsgs_search, hmatch, hx_eq]
    · simp only [bsgs_search, hnomatch j hlt]
      exact ih (j + 1) (by omega) (by omega)

/-- The Baby-Step Giant-Step solver returns the true exponent for any
`x ∈ [1, p-2]` (at `x = p-1` it returns `0` instead, see the
counterexample for claim C1). -/
lemma shanks_bsgs_solves (p g x : Nat) (hp : Nat.Prime p)
    (hgen : is_valid_generator p g) (hx1 : 1 ≤ x) (hx2 : x ≤ p - 2) :
    shanks_bsgs p g (g ^ x % p) = (x : Int) := by
  haveI : Fact (Nat.Prime p) := ⟨hp⟩
  have hp3 : 3 ≤ p := by
    have h2 := hp.two_le; omega
  haveI : NeZero p := ⟨by omega⟩
  have hp0 : 0 < p := by omega
  unfold shanks_bsgs
  set n := nat_sqrt p + 1 with hn
  set b := g ^ x % p with hb
  set ginv := get_inverse (g ^ n) p with hginvdef
  set baby := (List.range n).map (fun i => g ^ i % p) with hbaby
  rw [List.range_eq_range']
  have hpn : p < n * n := lt_nat_sqrt_succ p
  have hn0 : 0 < n := by omega
  have hi0 : x % n < n := Nat.mod_lt x hn0
  have hj0 : x / n < n := (Nat.div_lt_iff_lt_mul hn0).mpr (by omega)
  have hx_eq : x % n + x / n * n = x := Nat.mod_add_div' x n
  have hnle : n - 1 ≤ p - 2 := by
    have := nat_sqrt_le_sub_two p hp3; omega
  have hndvd : ¬ p ∣ g := generator_not_dvd p g hp3 hgen
  have hG : (g : ZMod p) ≠ 0 := by
    rw [Ne, ZMod.natCast_zmod_eq_zero_iff_dvd]; exact hndvd
  have hkey : ∀ j : Nat,
      ((ginv : Nat) : ZMod p) ^ j * (g : ZMod p) ^ (j * n) = 1 := by
    intro j
    have h1 : ((ginv : Nat) : ZMod p) * (g : ZMod p) ^ n = 1 := by
      rw [hginvdef]
      unfold get_inverse
      rw [ZMod.natCast_mod, Nat.cast_pow, Nat.cast_pow]
      have hgn : ((g : ZMod p)) ^ n ≠ 0 := pow_ne_zero n hG
      calc ((g : ZMod p) ^ n) ^ (p - 2) * (g : ZMod p) ^ n
          = ((g : ZMod p) ^ n) ^ (p - 2 + 1) := (pow_succ _ _).symm
        _ = ((g : ZMod p) ^ n) ^ (p - 1) := by
            rw [show p - 2 + 1 = p - 1 by omega]
        _ = 1 := ZMod.pow_card_sub_one_eq_one hgn
    have h2 : (((ginv : Nat) : ZMod p) * (g : ZMod p) ^ n) ^ j = 1 := by
      rw [h1, one_pow]
    rw [mul_pow, ← pow_mul] at h2
    rwa [Nat.mul_comm n j] at h2
  have hbaby_get : ∀ i, i < n → baby[i]? = some (g ^ i % p) := by
    intro i hi
    rw [hbaby, List.getElem?_map, List.getElem?_range hi]
    rfl
  have hcast : ∀ j : Nat, (((b * ginv ^ j) % p : Nat) : ZMod p)
      = (g : ZMod p) ^ x * ((ginv : Nat) : ZMod p) ^ j := by
    intro j
    rw [ZMod.natCast_mod, Nat.cast_mul, Nat.cast_pow, hb, ZMod.natCast_mod,
      Nat.cast_pow]
  have factA : (b * ginv ^ (x / n)) % p = g ^ (x % n) % p := by
    apply nat_eq_of_zmod_eq p _ _ hp0 (Nat.mod_lt _ hp0) (Nat.mod_lt _ hp0)
    rw [hcast, ZMod.natCast_mod, Nat.cast_pow]
    have hsplit : (g : ZMod p) ^ x
        = (g : ZMod p) ^ (x % n) * (g : ZMod p) ^ (x / n * n) := by
      rw [← pow_add, hx_eq]
    calc (g : ZMod p) ^ x * ((ginv : Nat) : ZMod p) ^ (x / n)
        = (g : ZMod p) ^ (x % n) *
          (((ginv : Nat) : ZMod p) ^ (x / n) * (g : ZMod p) ^ (x / n * n)) := by
          rw [hsplit]; ring
      _ = (g : ZMod p) ^ (x % n) := by rw [hkey, mul_one]
  have hmatch : list_index baby ((b * ginv ^ (x / n)) % p) = some (x % n) := by
    apply list_index_spec
    · rw [hbaby_get _ hi0, factA]
    · intro i hilt
      rw [hbaby_get i (by omega)]
      intro hsome
      have heq : g ^ i % p = (b * ginv ^ (x / n)) % p := by
        injection hsome
      rw [factA] at heq
      have := generator_inj_zero p g hp3 hgen i (x % n) (by omega) (by omega) heq
      omega
  have hnomatch : ∀ j, j < x / n →
      list_index baby ((b * ginv ^ j) % p) = none := by
    intro j hj
    apply list_index_none
    intro a ha
    rw [hbaby, List.mem_map] at ha
    obtain ⟨i, hirange, rfl⟩ := ha
    rw [List.mem_range] at hirange
    intro heq
    have hz : (g : ZMod p) ^ i = (g : ZMod p) ^ x * ((ginv : Nat) : ZMod p) ^ j := by
      have hc := congrArg (fun t : Nat => (t : ZMod p)) heq
      simp only at hc
      rw [ZMod.natCast_mod, Nat.cast_pow, hcast j] at hc
      exact hc
    have hz2 : (g : ZMod p) ^ (i + j * n) = (g : ZMod p) ^ x := by
      calc (g : ZMod p) ^ (i + j * n)
          = (g : ZMod p) ^ i * (g : ZMod p) ^ (j * n) := pow_add _ _ _
        _ = (g : ZMod p) ^ x *
            (((ginv : Nat) : ZMod p) ^ j * (g : ZMod p) ^ (j * n)) := by
            rw [hz]; ring
        _ = (g : ZMod p) ^ x := by rw [hkey, mul_one]
    have hmod : g ^ (i + j * n) % p = g ^ x % p :=
      (ZMod.natCast_eq_natCast_iff (g ^ (i + j * n)) (g ^ x) p).mp
        (by push_cast; exact hz2)
    have h5 : (j + 1) * n ≤ x / n * n := Nat.mul_le_mul_right n (by omega)
    have h6 : (j + 1) * n = j * n + n := by ring
    have hb1 : i + j * n < x := by omega
    have := generator_inj_zero p g hp3 hgen (i + j * n) x (by omega) hx2 hmod
    omega
  have := bsgs_search_exact p b ginv n x (x % n) (x / n) baby hx_eq hj0
    hmatch hnomatch n 0 (Nat.zero_add n) (Nat.zero_le _)
  exact this

/-! ### ElGamal decryption algebra -/

lemma zmod_fermat_cancel (p : Nat) (hp : Nat.Prime p) (X M : ZMod p)
    (hX : X ≠ 0) : X ^ (p - 2) * (M * X) = M := by
  haveI : Fact (Nat.Prime p) := ⟨hp⟩
  have h1 : X ^ (p - 2) * X = 1 := by
    calc X ^ (p - 2) * X = X ^ (p - 2 + 1) := (pow_succ _ _).symm
      _ = X ^ (p - 1) := by
          rw [show p - 2 + 1 = p - 1 from by have := hp.two_le; omega]
      _ = 1 := ZMod.pow_card_sub_one_eq_one hX
  calc X ^ (p - 2) * (M * X) = M * (X ^ (p - 2) * X) := by ring
    _ = M := by rw [h1, mul_one]

/-- Decryption inverts encryption: with `c1 = g^k % p` and
`c2 = m * (g^sk % p)^k % p` (the recipient's public key being `g^sk % p`),
the quantity `get_inverse(c1^sk, p) * c2 % p` recovers `m`, exactly as
`ElGamal.decrypt_char` computes it. -/
lemma elgamal_roundtrip (p g k sk m : Nat) (hp : Nat.Prime p) (hg : ¬ p ∣ g)
    (hm : m < p) :
    (get_inverse ((g ^ k % p) ^ sk) p * ((m * (g ^ sk % p) ^ k) % p)) % p
      = m := by
  haveI : Fact (Nat.Prime p) := ⟨hp⟩
  have hG : (g : ZMod p) ≠ 0 := by
    rw [Ne, ZMod.natCast_zmod_eq_zero_iff_dvd]; exact hg
  apply nat_eq_of_zmod_eq p _ _ hp.pos (Nat.mod_lt _ hp.pos) hm
  unfold get_inverse
  push_cast [ZMod.natCast_mod]
  rw [← pow_mul (g : ZMod p) k sk, ← pow_mul (g : ZMod p) sk k,
    Nat.mul_comm sk k]
  exact zmod_fermat_cancel p hp _ _ (pow_ne_zero _ hG)

/-- Same cancellation in the shape used by `Attacker.intercept_message`
(line 65 of src/src/attacker.py), which reduces `c1^sk` modulo `p` before
inverting and multiplies in the other order. -/
lemma elgamal_attacker_roundtrip (p g k sk m : Nat) (hp : Nat.Prime p)
    (hg : ¬ p ∣ g) (hm : m < p) :
    (((m * (g ^ sk % p) ^ k) % p) * get_inverse ((g ^ k % p) ^ sk % p) p) % p
      = m := by
  haveI : Fact (Nat.Prime p) := ⟨hp⟩
  have hG : (g : ZMod p) ≠ 0 := by
    rw [Ne, ZMod.natCast_zmod_eq_zero_iff_dvd]; exact hg
  apply nat_eq_of_zmod_eq p _ _ hp.pos (Nat.mod_lt _ hp.pos) hm
  unfold get_inverse
  push_cast [ZMod.natCast_mod]
  rw [← pow_mul (g : ZMod p) k sk, ← pow_mul (g : ZMod p) sk k,
    Nat.mul_comm sk k, mul_comm]
  exact zmod_fermat_cancel p hp _ _ (pow_ne_zero _ hG)

/-! ### Claim theorems: discrete-log solvers (C1, C3) -/

lemma prime7 : Nat.Prime 7 := by norm_num

lemma prime257 : Nat.Prime 257 := by norm_num

/-- C3: for every prime `p`, every valid generator `g` of `(ℤ/pℤ)ˣ`, and
every `x ∈ [1, p-1]`, the brute-force solver applied to `(p, g, g^x mod p)`
returns `x`: it scans `i = 1, 2, …, p-1` and returns the first `i` with
`g^i mod p` equal to the target. -/
theorem brute_force_recovers_dlog (p g x : Nat) (hp : Nat.Prime p)
    (hgen : is_valid_generator p g) (hx1 : 1 ≤ x) (hx2 : x ≤ p - 1) :
    brute_force p g (g ^ x % p) = (x : Int) :=
  brute_force_solves p g x hgen hx1 hx2

/-- Witness for C3 at `p = 7`, `g = 3`, `x = 4`. -/
theorem brute_force_recovers_dlog_witness :
    brute_force 7 3 (3 ^ 4 % 7) = ((4 : Nat) : Int) :=
  brute_force_recovers_dlog 7 3 4 prime7 (by decide) (by decide) (by decide)

/-- C1 counterexample: with the prime `p = 7`, the valid generator `g = 3`
and `x = 6 ∈ [1, p-1]`, the target is `3^6 mod 7 = 1`, which already equals
the baby step `g^0`, so the BSGS solver returns `0` instead of `6`. -/
theorem shanks_bsgs_claim_counterexample :
    Nat.Prime 7 ∧ is_valid_generator 7 3 ∧ (1 ≤ 6 ∧ 6 ≤ 7 - 1) ∧
    shanks_bsgs 7 3 (3 ^ 6 % 7) ≠ ((6 : Nat) : Int) :=
  ⟨prime7, by decide, by decide, by decide⟩

/-- C1 (amended): for every prime `p`, every valid generator `g` of
`(ℤ/pℤ)ˣ`, and every `x ∈ [1, p-2]`, the Baby-Step Giant-Step solver
applied to `(p, g, g^x mod p)` returns `x`, where the solver uses
`n = floor(sqrt p) + 1`, baby steps `g^i mod p` for `i = 0..n-1`, and
returns `i + j*n` at the first match with smallest `j` then smallest `i`.
(At `x = p-1` it returns `0` instead, the exponent congruent to `p-1`
modulo the group order.) -/
theorem shanks_bsgs_recovers_dlog (p g x : Nat) (hp : Nat.Prime p)
    (hgen : is_valid_generator p g) (hx1 : 1 ≤ x) (hx2 : x ≤ p - 2) :
    shanks_bsgs p g (g ^ x % p) = (x : Int) :=
  shanks_bsgs_solves p g x hp hgen hx1 hx2

/-- Witness for C1 (amended) at `p = 7`, `g = 3`, `x = 4`. -/
theorem shanks_bsgs_recovers_dlog_witness :
    shanks_bsgs 7 3 (3 ^ 4 % 7) = ((4 : Nat) : Int) :=
  shanks_bsgs_recovers_dlog 7 3 4 prime7 (by decide) (by decide) (by decide)


/-! ### Dictionary and user-list lemmas -/

lemma dictGet_insert_self (d : List (String × Nat)) (k : String) (v : Nat) :
    dictGet (dictInsert d k v) k = some v := by
  induction d with
  | nil => simp [dictInsert, dictGet]
  | cons kv rest ih =>
    obtain ⟨k1, v1⟩ := kv
    by_cases h : k1 = k
    · simp [dictInsert, dictGet, h]
    · simp [dictInsert, dictGet, h, ih]

lemma dictGet_insert_ne (d : List (String × Nat)) (k k1 : String) (v : Nat)
    (h : k1 ≠ k) : dictGet (dictInsert d k v) k1 = dictGet d k1 := by
  have h' : ¬ (k = k1) := fun hh => h (Eq.symm hh)
  induction d with
  | nil => simp [dictInsert, dictGet, h']
  | cons kv rest ih =>
    obtain ⟨k2, v2⟩ := kv
    simp only [dictInsert]
    by_cases h2 : k2 = k
    · rw [if_pos h2]
      simp only [dictGet]
      rw [if_neg (by rw [h2]; exact h'), if_neg (by rw [h2]; exact h')]
    · rw [if_neg h2]
      simp only [dictGet]
      by_cases h3 : k2 = k1
      · rw [if_pos h3, if_pos h3]
      · rw [if_neg h3, if_neg h3]
        exact ih

lemma findUser_updateFirst_ne (users : List User) (name nm : String)
    (f : User → User) (hf : ∀ u, (f u).name = u.name) (h : name ≠ nm) :
    findUser (updateFirst users name f) nm = findUser users nm := by
  induction users with
  | nil => rfl
  | cons u rest ih =>
    simp only [updateFirst]
    by_cases hu : u.name = name
    · rw [if_pos hu]
      have h1 : ((f u).name == nm) = false := by
        rw [hf u, hu]; simp [h]
      have h2 : (u.name == nm) = false := by
        rw [hu]; simp [h]
      simp only [findUser, List.find?, h1, h2]
    · rw [if_neg hu]
      simp only [findUser, List.find?]
      cases hb : (u.name == nm) with
      | true => rfl
      | false =>
        simp only [findUser] at ih
        exact ih

lemma findUser_append_new (users : List User) (name : String) (u : User)
    (hu : u.name = name)
    (h : ∀ v ∈ users, v.name ≠ name) :
    findUser (users ++ [u]) name = some u := by
  induction users with
  | nil => simp [findUser, List.find?, hu]
  | cons v rest ih =>
    have hv : (v.name == name) = false := by simp [h v (by simp)]
    simp only [findUser, List.cons_append, List.find?, hv]
    exact ih (fun w hw => h w (by simp [hw]))

/-! ### State-shape preservation of the encryption path -/

lemma get_new_sk_state_cases (s : ElGamal) (name : String) (d : Nat) :
    (s.get_new_sk name d).2 = s ∨
    (s.get_new_sk name d).2 = { s with
      users := updateFirst s.users name (fun u => { u with sk := d }),
      pks := dictInsert s.pks name ((s.g ^ d) % s.p) } := by
  unfold ElGamal.get_new_sk
  split
  · exact Or.inl rfl
  split
  · exact Or.inl rfl
  · exact Or.inr rfl

lemma encrypt_char_state_cases (s : ElGamal) (src dst : String) (m d : Nat) :
    (s.encrypt_char src dst m d).2 = s ∨
    (s.encrypt_char src dst m d).2 = { s with
      users := updateFirst s.users src (fun u => { u with sk := d }),
      pks := dictInsert s.pks src ((s.g ^ d) % s.p) } := by
  unfold ElGamal.encrypt_char
  split
  · exact Or.inl rfl
  rcases hgu : s.get_user src with e | srcUser
  · exact Or.inl rfl
  rcases hgn : s.get_new_sk src d with ⟨res, s1⟩
  have hcase := get_new_sk_state_cases s src d
  rw [hgn] at hcase
  cases res with
  | error e => simpa using hcase
  | ok v =>
    repeat' split
    all_goals simp_all

lemma map_updateFirst_eq {β : Type} (proj : User → β) (users : List User)
    (name : String) (f : User → User) (hf : ∀ u, proj (f u) = proj u) :
    (updateFirst users name f).map proj = users.map proj := by
  induction users with
  | nil => rfl
  | cons u rest ih =>
    simp only [updateFirst]
    by_cases hu : u.name = name
    · rw [if_pos hu]
      simp only [List.map, hf u]
    · rw [if_neg hu]
      simp only [List.map, ih]

lemma encrypt_char_preserves (s : ElGamal) (src dst : String) (m d : Nat) :
    ((s.encrypt_char src dst m d).2).p = s.p ∧
    ((s.encrypt_char src dst m d).2).g = s.g ∧
    ((s.encrypt_char src dst m d).2).debug = s.debug ∧
    ((s.encrypt_char src dst m d).2).nb_users = s.nb_users ∧
    ((s.encrypt_char src dst m d).2).message_queue = s.message_queue ∧
    ((s.encrypt_char src dst m d).2).users.map userLog = s.users.map userLog := by
  rcases encrypt_char_state_cases s src dst m d with h | h <;> rw [h]
  · exact ⟨rfl, rfl, rfl, rfl, rfl, rfl⟩
  · exact ⟨rfl, rfl, rfl, rfl, rfl,
      map_updateFirst_eq userLog s.users src _ (fun u => rfl)⟩

lemma encrypt_loop_preserves (src dst : String) : ∀ (cs ds : List Nat)
    (s : ElGamal),
    ((ElGamal.encrypt_loop s src dst cs ds).2).p = s.p ∧
    ((ElGamal.encrypt_loop s src dst cs ds).2).g = s.g ∧
    ((ElGamal.encrypt_loop s src dst cs ds).2).debug = s.debug ∧
    ((ElGamal.encrypt_loop s src dst cs ds).2).nb_users = s.nb_users ∧
    ((ElGamal.encrypt_loop s src dst cs ds).2).message_queue
      = s.message_queue ∧
    ((ElGamal.encrypt_loop s src dst cs ds).2).users.map userLog
      = s.users.map userLog := by
  intro cs
  induction cs with
  | nil => intro ds s; exact ⟨rfl, rfl, rfl, rfl, rfl, rfl⟩
  | cons c cs ih =>
    intro ds s
    cases ds with
    | nil => exact ⟨rfl, rfl, rfl, rfl, rfl, rfl⟩
    | cons d ds =>
      simp only [ElGamal.encrypt_loop]
      have h1 := encrypt_char_preserves s src dst c d
      rcases hec : s.encrypt_char src dst c d with ⟨res, s1⟩
      rw [hec] at h1
      cases res with
      | error e => exact h1
      | ok cc =>
        have h2 := ih ds s1
        simp only []
        rcases hloop : ElGamal.encrypt_loop s1 src dst cs ds with ⟨res2, s2⟩
        rw [hloop] at h2
        cases res2 with
        | error e =>
          exact ⟨h2.1.trans h1.1, h2.2.1.trans h1.2.1,
            h2.2.2.1.trans h1.2.2.1, h2.2.2.2.1.trans h1.2.2.2.1,
            h2.2.2.2.2.1.trans h1.2.2.2.2.1, h2.2.2.2.2.2.trans h1.2.2.2.2.2⟩
        | ok rest =>
          exact ⟨h2.1.trans h1.1, h2.2.1.trans h1.2.1,
            h2.2.2.1.trans h1.2.2.1, h2.2.2.2.1.trans h1.2.2.2.1,
            h2.2.2.2.2.1.trans h1.2.2.2.2.1, h2.2.2.2.2.2.trans h1.2.2.2.2.2⟩

/-! ### Claim theorems: encrypt/decrypt round trip (C2) -/

/-- C2: for every valid cryptosystem (`p` prime, `g` a generator hence not a
multiple of `p`), every pair of distinct registered users `src` and `dst`
(with `dst`'s public-key entry matching its current secret key, the KeyPair
invariant), and every symbol ordinal `m < p`, decrypting the result of
encrypting `m` from `src` to `dst` with `dst`'s current secret key returns
`m`, for any rotation draw `k`. -/
theorem encrypt_then_decrypt_recovers (s : ElGamal) (src dst : String)
    (m k : Nat) (ud : User)
    (hp : Nat.Prime s.p) (hg : ¬ s.p ∣ s.g)
    (hsrcname : ¬ (src = "" ∧ s.debug = true))
    (hdstname : ¬ (dst = "" ∧ s.debug = true))
    (hne : dst ≠ src)
    (hsrcfind : (findUser s.users src).isSome = true)
    (hsrcpks : (dictGet s.pks src).isSome = true)
    (hdstfind : findUser s.users dst = some ud)
    (hdstpks : dictGet s.pks dst = some (s.g ^ ud.sk % s.p))
    (hm : m < s.p) :
    ∃ c : Nat × Nat, (s.encrypt_char src dst m k).1 = Except.ok c ∧
      ((s.encrypt_char src dst m k).2).decrypt_char dst c = Except.ok m := by
  obtain ⟨us, hus⟩ := Option.isSome_iff_exists.mp hsrcfind
  have hnm : ¬ (s.p < m) := by omega
  have hsrcpks' : (dictGet s.pks src).isNone = false := by
    rcases hd : dictGet s.pks src with _ | v
    · rw [hd] at hsrcpks; simp at hsrcpks
    · rfl
  have hgu : s.get_user src = Except.ok (some us) := by
    unfold ElGamal.get_user
    rw [if_neg hsrcname, if_neg (by simp [hsrcpks']), hus]
  have hgns : s.get_new_sk src k = (Except.ok k, { s with
      users := updateFirst s.users src (fun u => { u with sk := k }),
      pks := dictInsert s.pks src ((s.g ^ k) % s.p) }) := by
    unfold ElGamal.get_new_sk
    rw [if_neg hsrcname, if_neg (by simp [hsrcpks'])]
  set s1 : ElGamal := { s with
    users := updateFirst s.users src (fun u => { u with sk := k }),
    pks := dictInsert s.pks src ((s.g ^ k) % s.p) } with hs1
  have hpk1 : s1.get_user_pk src = Except.ok ((s.g ^ k) % s.p) := by
    unfold ElGamal.get_user_pk
    rw [if_neg hsrcname]
    simp only [hs1, dictGet_insert_self]
  have hdg1 : dictGet s1.pks dst = some (s.g ^ ud.sk % s.p) := by
    rw [hs1]
    exact (dictGet_insert_ne s.pks src dst ((s.g ^ k) % s.p) hne).trans hdstpks
  have hpk2 : s1.get_user_pk dst = Except.ok (s.g ^ ud.sk % s.p) := by
    unfold ElGamal.get_user_pk
    rw [if_neg hdstname, hdg1]
  have henc : s.encrypt_char src dst m k
      = (Except.ok ((s.g ^ k) % s.p, (m * (s.g ^ ud.sk % s.p) ^ k) % s.p), s1) := by
    unfold ElGamal.encrypt_char
    rw [if_neg hnm, hgu, hgns]
    simp only [hpk1, hpk2, hs1]
  refine ⟨((s.g ^ k) % s.p, (m * (s.g ^ ud.sk % s.p) ^ k) % s.p), ?_, ?_⟩
  · rw [henc]
  · rw [henc]
    unfold ElGamal.decrypt_char
    rw [if_neg hdstname]
    have hfind1 : findUser s1.users dst = some ud := by
      rw [hs1]
      rw [findUser_updateFirst_ne s.users src dst
        (fun u => { u with sk := k }) (fun u => rfl) hne.symm]
      exact hdstfind
    rw [if_neg (by simp [hdg1]), hfind1]
    have hrt := elgamal_roundtrip s.p s.g k ud.sk m hp hg hm
    simp only [hs1]
    rw [hrt]

/-- Witness for C2: a concrete two-user state over `p = 7`, `g = 3`. -/
theorem encrypt_then_decrypt_recovers_witness :
    ∃ c : Nat × Nat,
      ((⟨7, 3, [("A", 3 ^ 2 % 7), ("B", 3 ^ 4 % 7)],
         [mkUser "A" 2, mkUser "B" 4], 2, [], true⟩ :
          ElGamal).encrypt_char "A" "B" 5 3).1 = Except.ok c ∧
      (((⟨7, 3, [("A", 3 ^ 2 % 7), ("B", 3 ^ 4 % 7)],
         [mkUser "A" 2, mkUser "B" 4], 2, [], true⟩ :
          ElGamal).encrypt_char "A" "B" 5 3).2).decrypt_char "B" c
        = Except.ok 5 :=
  encrypt_then_decrypt_recovers _ "A" "B" 5 3 (mkUser "B" 4) prime7
    (by decide) (by decide) (by decide) (by decide) (by decide) (by decide)
    (by decide) (by decide) (by decide)

/-! ### Claim theorems: boundary symbol `ord = p` (C10) -/

/-- C10: for a symbol whose ordinal equals exactly `p`, `encrypt_char`
succeeds (the `_is_valid_char` check rejects only ordinals strictly greater
than `p`), the resulting ciphertext has `c2 = 0`, and `decrypt_char` on it
returns `0` rather than the original ordinal `p`: the round trip silently
corrupts the boundary symbol instead of rejecting it. -/
theorem boundary_symbol_corrupts (s : ElGamal) (src dst : String)
    (k pkd : Nat) (ud : User)
    (hp : Nat.Prime s.p)
    (hsrcname : ¬ (src = "" ∧ s.debug = true))
    (hdstname : ¬ (dst = "" ∧ s.debug = true))
    (hne : dst ≠ src)
    (hsrcfind : (findUser s.users src).isSome = true)
    (hsrcpks : (dictGet s.pks src).isSome = true)
    (hdstfind : findUser s.users dst = some ud)
    (hdstpks : dictGet s.pks dst = some pkd) :
    (s.encrypt_char src dst s.p k).1 = Except.ok ((s.g ^ k) % s.p, 0) ∧
      ((s.encrypt_char src dst s.p k).2).decrypt_char dst ((s.g ^ k) % s.p, 0)
        = Except.ok 0 ∧
      (0 : Nat) ≠ s.p := by
  obtain ⟨us, hus⟩ := Option.isSome_iff_exists.mp hsrcfind
  have hnm : ¬ (s.p < s.p) := by omega
  have hsrcpks' : (dictGet s.pks src).isNone = false := by
    rcases hd : dictGet s.pks src with _ | v
    · rw [hd] at hsrcpks; simp at hsrcpks
    · rfl
  have hgu : s.get_user src = Except.ok (some us) := by
    unfold ElGamal.get_user
    rw [if_neg hsrcname, if_neg (by simp [hsrcpks']), hus]
  have hgns : s.get_new_sk src k = (Except.ok k, { s with
      users := updateFirst s.users src (fun u => { u with sk := k }),
      pks := dictInsert s.pks src ((s.g ^ k) % s.p) }) := by
    unfold ElGamal.get_new_sk
    rw [if_neg hsrcname, if_neg (by simp [hsrcpks'])]
  set s1 : ElGamal := { s with
    users := updateFirst s.users src (fun u => { u with sk := k }),
    pks := dictInsert s.pks src ((s.g ^ k) % s.p) } with hs1
  have hpk1 : s1.get_user_pk src = Except.ok ((s.g ^ k) % s.p) := by
    unfold ElGamal.get_user_pk
    rw [if_neg hsrcname]
    simp only [hs1, dictGet_insert_self]
  have hdg1 : dictGet s1.pks dst = some pkd := by
    rw [hs1]
    exact (dictGet_insert_ne s.pks src dst ((s.g ^ k) % s.p) hne).trans hdstpks
  have hpk2 : s1.get_user_pk dst = Except.ok pkd := by
    unfold ElGamal.get_user_pk
    rw [if_neg hdstname, hdg1]
  have henc : s.encrypt_char src dst s.p k
      = (Except.ok ((s.g ^ k) % s.p, 0), s1) := by
    unfold ElGamal.encrypt_char
    rw [if_neg hnm, hgu, hgns]
    simp only [hpk1, hpk2, hs1, Nat.mul_mod_right]
  refine ⟨by rw [henc], ?_, Nat.ne_of_lt hp.pos⟩
  rw [henc]
  unfold ElGamal.decrypt_char
  rw [if_neg hdstname]
  have hfind1 : findUser s1.users dst = some ud := by
    rw [hs1]
    rw [findUser_updateFirst_ne s.users src dst
      (fun u => { u with sk := k }) (fun u => rfl) hne.symm]
    exact hdstfind
  rw [if_neg (by simp [hdg1]), hfind1]
  simp

/-- Witness for C10 over the two-user state of the C2 witness, with the
boundary symbol `7 = p`. -/
theorem boundary_symbol_corrupts_witness :
    ((⟨7, 3, [("A", 3 ^ 2 % 7), ("B", 3 ^ 4 % 7)],
       [mkUser "A" 2, mkUser "B" 4], 2, [], true⟩ :
        ElGamal).encrypt_char "A" "B" 7 3).1 = Except.ok ((3 ^ 3) % 7, 0) ∧
      (((⟨7, 3, [("A", 3 ^ 2 % 7), ("B", 3 ^ 4 % 7)],
        [mkUser "A" 2, mkUser "B" 4], 2, [], true⟩ :
         ElGamal).encrypt_char "A" "B" 7 3).2).decrypt_char "B" ((3 ^ 3) % 7, 0)
        = Except.ok 0 ∧
      (0 : Nat) ≠ 7 :=
  boundary_symbol_corrupts _ "A" "B" 3 (3 ^ 4 % 7) (mkUser "B" 4) prime7
    (by decide) (by decide) (by decide) (by decide) (by decide) (by decide)
    (by decide)

/-! ### Claim theorems: registration with an empty name (C7) -/

/-- C7 (code behavior at the failing input): with the debug flag off,
`add_user` accepts an empty (or missing) name and registers a user under it
— the `raise` in `_is_valid_username` (src/src/cryptosystems.py:192-197)
sits inside the `if self.debug:` block, unlike every sibling validator, so
with `debug = False` nothing is raised and the user is added. -/
theorem add_user_empty_name_silently_succeeds (s : ElGamal) (sk : Nat)
    (hdbg : s.debug = false) :
    (s.add_user "" sk).1 = Except.ok () ∧
    (s.add_user "" sk).2.users = s.users ++ [mkUser "" sk] ∧
    (s.add_user "" sk).2.nb_users = s.nb_users + 1 := by
  unfold ElGamal.add_user
  rw [if_neg (by simp [hdbg])]
  exact ⟨rfl, rfl, rfl⟩

/-- Witness for C7 at a concrete debug-off state. -/
theorem add_user_empty_name_silently_succeeds_witness :
    ((⟨7, 3, [], [], 0, [], false⟩ : ElGamal).add_user "" 1).1 = Except.ok () ∧
    ((⟨7, 3, [], [], 0, [], false⟩ : ElGamal).add_user "" 1).2.users
      = [] ++ [mkUser "" 1] ∧
    ((⟨7, 3, [], [], 0, [], false⟩ : ElGamal).add_user "" 1).2.nb_users = 0 + 1 :=
  add_user_empty_name_silently_succeeds ⟨7, 3, [], [], 0, [], false⟩ 1 rfl

/-! ### Claim theorems: lookups of absent users (C8) -/

/-- C8 counterexample: register `"A"`, deregister it, then look it up.
`remove_user` never deletes the `pks` dict entry, so `_user_exists` still
passes: `get_user_pk` returns the stale key `3^2 mod 7` instead of failing
with `UnknownUser`, and `get_user` returns no user without raising. -/
theorem deregistered_lookup_counterexample :
    mkElGamal 7 3 true = Except.ok ⟨7, 3, [], [], 0, [], true⟩ ∧
    ((((⟨7, 3, [], [], 0, [], true⟩ : ElGamal).add_user "A" 2).2.remove_user
        "A").2.get_user_pk "A" = Except.ok (3 ^ 2 % 7) ∧
      (((⟨7, 3, [], [], 0, [], true⟩ : ElGamal).add_user "A" 2).2.remove_user
        "A").2.get_user_pk "A" ≠ Except.error Err.unknownUser ∧
      (((⟨7, 3, [], [], 0, [], true⟩ : ElGamal).add_user "A" 2).2.remove_user
        "A").2.get_user "A" = Except.ok none) := by decide

/-- C8 (amended): a name that was never registered (absent from the `pks`
dict) makes both `get_user` and `get_user_pk` fail with `UnknownUser`;
but `remove_user` leaves the `pks` entry of a deregistered name in place,
so a deregistered name's `get_user_pk` still returns the stale key instead
of failing. -/
theorem unknown_lookup_fails_stale_persists :
    (∀ (s : ElGamal) (name : String), dictGet s.pks name = none →
      ¬ (name = "" ∧ s.debug = true) →
      s.get_user name = Except.error Err.unknownUser ∧
      s.get_user_pk name = Except.error Err.unknownUser) ∧
    (∀ (s : ElGamal) (name : String) (pk : Nat),
      dictGet s.pks name = some pk →
      ¬ (name = "" ∧ s.debug = true) →
      ((s.remove_user name).2).pks = s.pks ∧
      ((s.remove_user name).2).get_user_pk name = Except.ok pk) := by
  constructor
  · intro s name hd hn
    constructor
    · unfold ElGamal.get_user
      rw [if_neg hn, if_pos (by simp [hd])]
    · unfold ElGamal.get_user_pk
      rw [if_neg hn, hd]
  · intro s name pk hd hn
    have hrm : ((s.remove_user name).2).pks = s.pks ∧
        ((s.remove_user name).2).debug = s.debug := by
      unfold ElGamal.remove_user
      rw [if_neg hn, if_neg (by simp [hd])]
      cases hrf : removeFirst s.users name <;> simp
    refine ⟨hrm.1, ?_⟩
    unfold ElGamal.get_user_pk
    rw [if_neg (by rw [hrm.2]; exact hn), hrm.1, hd]

/-- Witness for C8 (amended): an unregistered name on a concrete state. -/
theorem unknown_lookup_fails_stale_persists_witness :
    (⟨7, 3, [], [], 0, [], true⟩ : ElGamal).get_user "X"
      = Except.error Err.unknownUser :=
  (unknown_lookup_fails_stale_persists.1 ⟨7, 3, [], [], 0, [], true⟩ "X"
    (by decide) (by decide)).1

/-! ### Claim theorems: which queue entry interception inspects (C5) -/

/-- C5 counterexample: after two sends (first to `"B"`, then to `"C"`), the
most-recently-enqueued entry is for `"C"` (the queue head, since
`send_message` inserts at index 0), but `intercept_message` reads
`message_queue[-1]` and logs the message for `"B"` — the oldest entry, not
the one added by the latest `sendMessage`. -/
theorem intercept_not_newest_counterexample :
    ((((((⟨7, 3, [], [], 0, [], true⟩ : ElGamal).add_user "A" 1).2.add_user
          "B" 2).2.add_user "C" 3).2.send_message "A" "B" [1] [4]).2.send_message
          "A" "C" [1] [5]).2.message_queue.head?.map Prod.fst = some "C" ∧
    (intercept_message ⟨"Eve", []⟩
        ((((((⟨7, 3, [], [], 0, [], true⟩ : ElGamal).add_user "A" 1).2.add_user
          "B" 2).2.add_user "C" 3).2.send_message "A" "B" [1] [4]).2.send_message
          "A" "C" [1] [5]).2
        AttackType.bruteForce).2.1.intercepted_messages.map
      (fun r => (r.1, r.2.1)) = [("A", "B")] := by decide

/-- C5 (amended): `intercept_message` inspects — without removing — the
entry at the BACK of the queue (`message_queue[-1]`), which under
`send_message`'s insert-at-front discipline is the earliest still-pending
entry, the same end `receive_message` pops; it coincides with the latest
send only when the queue has exactly one entry.  Concretely: (1) intercept
never changes the cryptosystem state; (2) a successful intercept appends a
record naming exactly the sender and recipient of the back entry; (3) a
successful `send_message` prepends its entry at the front of the queue;
(4) a successful `receive_message` removes the back entry. -/
theorem intercept_reads_back_of_queue :
    (∀ (a : Attacker) (s : ElGamal) (t : AttackType),
      (intercept_message a s t).2.2 = s) ∧
    (∀ (a : Attacker) (s : ElGamal) (t : AttackType) (dst src : String)
       (msg : List (Nat × Nat)) (dec : List Nat),
      s.message_queue.getLast? = some (dst, (src, msg)) →
      (intercept_message a s t).1 = Except.ok dec →
      (intercept_message a s t).2.1.intercepted_messages
        = a.intercepted_messages ++ [(src, dst, dec)]) ∧
    (∀ (s : ElGamal) (src dst : String) (m draws : List Nat)
       (r : String × List (Nat × Nat)) (s1 : ElGamal),
      s.send_message src dst m draws = (Except.ok r, s1) →
      ∃ chars, s1.message_queue = (dst, (src, chars)) :: s.message_queue) ∧
    (∀ (s : ElGamal) (dst : String) (enc : String × List (Nat × Nat))
       (m : List Nat) (s1 : ElGamal),
      s.receive_message dst enc = (Except.ok m, s1) →
      s1.message_queue = s.message_queue.dropLast) := by
  refine ⟨?_, ?_, ?_, ?_⟩
  · intro a s t
    unfold intercept_message
    rcases hq : s.message_queue.getLast? with _ | ⟨dst, src, msg⟩
    · rfl
    simp only []
    rcases hpk : s.get_user_pk dst with e | pk
    · rfl
    simp only []
    rcases hr : run_attack t s.p s.g pk with k | k
    · rfl
    · rfl
  · intro a s t dst src msg dec hq hok
    unfold intercept_message at hok ⊢
    rw [hq] at hok ⊢
    simp only [] at hok ⊢
    rcases hpk : s.get_user_pk dst with e | pk
    · rw [hpk] at hok
      exact Except.noConfusion hok
    rw [hpk] at hok
    simp only [] at hok ⊢
    rcases hr : run_attack t s.p s.g pk with k | k
    · rw [hr] at hok
      have hdec : Except.ok (msg.map (fun c =>
          (c.2 * get_inverse (c.1 ^ k % s.p) s.p) % s.p)) = Except.ok dec := hok
      injection hdec with hdec
      rw [← hdec]
    · rw [hr] at hok
      exact Except.noConfusion hok
  · intro s src dst m draws r s1 h
    unfold ElGamal.send_message at h
    split at h
    · exact absurd h (by simp)
    split at h
    · exact absurd h (by simp)
    split at h
    · exact absurd h (by simp)
    split at h
    · exact absurd h (by simp)
    split at h
    · exact absurd h (by simp)
    split at h
    · exact absurd h (by simp)
    have hloopq := encrypt_loop_preserves src dst m draws s
    rcases hloop : ElGamal.encrypt_loop s src dst m draws with ⟨res, sl⟩
    rw [hloop] at h hloopq
    cases res with
    | error e => simp at h
    | ok chars =>
      simp only at h
      refine ⟨chars, ?_⟩
      have hs1 := congrArg Prod.snd h
      simp only at hs1
      rw [← hs1]
      simp only []
      rw [hloopq.2.2.2.2.1]
  · intro s dst enc m s1 h
    unfold ElGamal.receive_message at h
    split at h
    · exact absurd h (by simp)
    split at h
    · exact absurd h (by simp)
    split at h
    · exact absurd h (by simp)
    split at h
    · exact absurd h (by simp)
    split at h
    · exact absurd h (by simp)
    · have hs1 := congrArg Prod.snd h
      simp only at hs1
      rw [← hs1]

/-- Witness for C5 (amended), exercising the log-append part on the
two-send state of the counterexample: the appended record names the
back-of-queue entry (recipient `"B"`, the FIRST send). -/
theorem intercept_reads_back_of_queue_witness :
    (intercept_message ⟨"Eve", []⟩
        ((((((⟨7, 3, [], [], 0, [], true⟩ : ElGamal).add_user "A" 1).2.add_user
          "B" 2).2.add_user "C" 3).2.send_message "A" "B" [1] [4]).2.send_message
          "A" "C" [1] [5]).2
        AttackType.bruteForce).2.1.intercepted_messages
      = ([] : List (String × String × List Nat)) ++ [("A", "B", [1])] :=
  intercept_reads_back_of_queue.2.1 ⟨"Eve", []⟩
    ((((((⟨7, 3, [], [], 0, [], true⟩ : ElGamal).add_user "A" 1).2.add_user
      "B" 2).2.add_user "C" 3).2.send_message "A" "B" [1] [4]).2.send_message
      "A" "C" [1] [5]).2
    AttackType.bruteForce "B" "A" [(4, 2)] [1] (by decide) (by decide)

/-! ### Claim theorems: state after validation failures (C9) -/

/-- C9 counterexample: `send_message` with message `[2, 99]` over `p = 7`
fails with `SymbolTooLarge` on the second symbol, but the first symbol was
already encrypted — rotating the sender's secret key and public-key map
entry — so the state after the failure differs from the state before the
call. -/
theorem send_message_partial_mutation_counterexample :
    ((⟨7, 3, [("A", 3), ("B", 2)], [mkUser "A" 1, mkUser "B" 2], 2, [],
        true⟩ : ElGamal).send_message "A" "B" [2, 99] [3, 4]).1
      = Except.error Err.symbolTooLarge ∧
    ((⟨7, 3, [("A", 3), ("B", 2)], [mkUser "A" 1, mkUser "B" 2], 2, [],
        true⟩ : ElGamal).send_message "A" "B" [2, 99] [3, 4]).2
      ≠ (⟨7, 3, [("A", 3), ("B", 2)], [mkUser "A" 1, mkUser "B" 2], 2, [],
        true⟩ : ElGamal) := by decide

/-- C9 (amended): failures of `send_message`'s up-front validators leave
the state unchanged (shown here for `EmptyMessage`, which fires before
anything else), and even when the per-symbol loop aborts midway (e.g.
`SymbolTooLarge` on a later symbol), the queue, the message logs, the
connection lists and all non-key fields are exactly as before — only the
sender's secret key and public-key map entry may have been rotated by the
symbols already processed. -/
theorem send_message_error_state :
    (∀ (s : ElGamal) (src dst : String) (draws : List Nat),
      s.send_message src dst [] draws = (Except.error Err.emptyMessage, s)) ∧
    (∀ (s : ElGamal) (src dst : String) (m draws : List Nat) (e : Err),
      (s.send_message src dst m draws).1 = Except.error e →
      ((s.send_message src dst m draws).2.p = s.p ∧
       (s.send_message src dst m draws).2.g = s.g ∧
       (s.send_message src dst m draws).2.debug = s.debug ∧
       (s.send_message src dst m draws).2.nb_users = s.nb_users ∧
       (s.send_message src dst m draws).2.message_queue = s.message_queue ∧
       (s.send_message src dst m draws).2.users.map userLog
         = s.users.map userLog)) := by
  constructor
  · intro s src dst draws
    rfl
  · intro s src dst m draws e h
    rcases hsm : s.send_message src dst m draws with ⟨res, s2⟩
    rw [hsm] at h
    simp only [] at h
    simp only []
    unfold ElGamal.send_message at hsm
    split at hsm
    · have h2 := congrArg Prod.snd hsm
      simp only [] at h2
      rw [← h2]
      exact ⟨rfl, rfl, rfl, rfl, rfl, rfl⟩
    split at hsm
    · have h2 := congrArg Prod.snd hsm
      simp only [] at h2
      rw [← h2]
      exact ⟨rfl, rfl, rfl, rfl, rfl, rfl⟩
    split at hsm
    · have h2 := congrArg Prod.snd hsm
      simp only [] at h2
      rw [← h2]
      exact ⟨rfl, rfl, rfl, rfl, rfl, rfl⟩
    split at hsm
    · have h2 := congrArg Prod.snd hsm
      simp only [] at h2
      rw [← h2]
      exact ⟨rfl, rfl, rfl, rfl, rfl, rfl⟩
    split at hsm
    · have h2 := congrArg Prod.snd hsm
      simp only [] at h2
      rw [← h2]
      exact ⟨rfl, rfl, rfl, rfl, rfl, rfl⟩
    split at hsm
    · have h2 := congrArg Prod.snd hsm
      simp only [] at h2
      rw [← h2]
      exact ⟨rfl, rfl, rfl, rfl, rfl, rfl⟩
    have hlp := encrypt_loop_preserves src dst m draws s
    rcases hloop : ElGamal.encrypt_loop s src dst m draws with ⟨res1, s1⟩
    rw [hloop] at hsm hlp
    cases res1 with
    | error e1 =>
      have h2 := congrArg Prod.snd hsm
      simp only [] at h2
      rw [← h2]
      exact hlp
    | ok chars =>
      simp only [] at hsm
      have h1 := congrArg Prod.fst hsm
      simp only [] at h1
      rw [← h1] at h
      exact Except.noConfusion h

/-- Witness for C9 (amended) at the counterexample input: the failing send
leaves queue, logs and all non-key data untouched. -/
theorem send_message_error_state_witness :
    ((⟨7, 3, [("A", 3), ("B", 2)], [mkUser "A" 1, mkUser "B" 2], 2, [],
        true⟩ : ElGamal).send_message "A" "B" [2, 99] [3, 4]).2.message_queue
      = (⟨7, 3, [("A", 3), ("B", 2)], [mkUser "A" 1, mkUser "B" 2], 2, [],
        true⟩ : ElGamal).message_queue :=
  (send_message_error_state.2
    ⟨7, 3, [("A", 3), ("B", 2)], [mkUser "A" 1, mkUser "B" 2], 2, [], true⟩
    "A" "B" [2, 99] [3, 4] Err.symbolTooLarge (by decide)).2.2.2.2.1

/-! ### Claim theorems: the public-key map invariant (C6) -/

/-- Core of the invariant preservation: rotating the key of `name` (new
draw `draw`) updates the first matching user and the dict entry together;
with pairwise-distinct names every user still matches its dict entry. -/
lemma invariant_updateFirst (g p draw : Nat) (pks : List (String × Nat))
    (name : String) : ∀ (users : List User),
    (∀ u ∈ users, dictGet pks u.name = some ((g ^ u.sk) % p)) →
    (users.map User.name).Nodup →
    ∀ u ∈ updateFirst users name (fun u => { u with sk := draw }),
      dictGet (dictInsert pks name ((g ^ draw) % p)) u.name
        = some ((g ^ u.sk) % p) := by
  intro users
  induction users with
  | nil => intro _ _ u hu; simp [updateFirst] at hu
  | cons v rest ih =>
    intro hinv hnd u hu
    have hnd1 : v.name ∉ rest.map User.name := (List.nodup_cons.mp hnd).1
    have hnd2 : (rest.map User.name).Nodup := (List.nodup_cons.mp hnd).2
    simp only [updateFirst] at hu
    by_cases hv : v.name = name
    · rw [if_pos hv] at hu
      rcases List.mem_cons.mp hu with rfl | hu
      · rw [show (({ v with sk := draw } : User)).name = name from hv]
        rw [dictGet_insert_self]
      · have hne : u.name ≠ name := by
          intro hun
          exact hnd1 (by rw [hv, ← hun]; exact List.mem_map_of_mem _ hu)
        rw [dictGet_insert_ne _ _ _ _ hne]
        exact hinv u (by simp [hu])
    · rw [if_neg hv] at hu
      rcases List.mem_cons.mp hu with rfl | hu
      · rw [dictGet_insert_ne _ _ _ _ hv]
        exact hinv u (by simp)
      · exact ih (fun w hw => hinv w (by simp [hw])) hnd2 u hu

/-- Updating only log fields (name and secret key untouched) of the first
matching user keeps every user aligned with the unchanged dict. -/
lemma invariant_update_logs (g p : Nat) (pks : List (String × Nat))
    (name : String) (f : User → User)
    (hf : ∀ u, (f u).name = u.name ∧ (f u).sk = u.sk) : ∀ (users : List User),
    (∀ u ∈ users, dictGet pks u.name = some ((g ^ u.sk) % p)) →
    ∀ u ∈ updateFirst users name f,
      dictGet pks u.name = some ((g ^ u.sk) % p) := by
  intro users
  induction users with
  | nil => intro _ u hu; simp [updateFirst] at hu
  | cons v rest ih =>
    intro hinv u hu
    simp only [updateFirst] at hu
    by_cases hv : v.name = name
    · rw [if_pos hv] at hu
      rcases List.mem_cons.mp hu with rfl | hu
      · rw [(hf v).1, (hf v).2]
        exact hinv v (by simp)
      · exact hinv u (by simp [hu])
    · rw [if_neg hv] at hu
      rcases List.mem_cons.mp hu with rfl | hu
      · exact hinv u (by simp)
      · exact ih (fun w hw => hinv w (by simp [hw])) u hu

/-- The key-rotation record (shared by `get_new_sk` and `encrypt_char`)
preserves the invariant and name distinctness. -/
lemma inv_preserved_rotate (s : ElGamal) (name : String) (draw : Nat)
    (hinv : pk_invariant s) (hnd : names_nodup s) :
    pk_invariant { s with
      users := updateFirst s.users name (fun u => { u with sk := draw }),
      pks := dictInsert s.pks name ((s.g ^ draw) % s.p) } ∧
    names_nodup { s with
      users := updateFirst s.users name (fun u => { u with sk := draw }),
      pks := dictInsert s.pks name ((s.g ^ draw) % s.p) } := by
  constructor
  · intro u hu
    exact invariant_updateFirst s.g s.p draw s.pks name s.users hinv hnd u hu
  · unfold names_nodup
    simp only []
    rw [map_updateFirst_eq User.name s.users name
      (fun u => { u with sk := draw }) (fun u => rfl)]
    exact hnd

lemma inv_preserved_addUser (s : ElGamal) (name : String) (sk : Nat)
    (hinv : pk_invariant s) (hnd : names_nodup s)
    (hfresh : ∀ u ∈ s.users, u.name ≠ name) :
    pk_invariant (s.add_user name sk).2 ∧ names_nodup (s.add_user name sk).2 := by
  unfold ElGamal.add_user
  split
  · exact ⟨hinv, hnd⟩
  constructor
  · intro u hu
    simp only [] at hu ⊢
    rcases List.mem_append.mp hu with hu | hu
    · rw [dictGet_insert_ne _ _ _ _ (hfresh u hu)]
      exact hinv u hu
    · have : u = mkUser name sk := by simpa using hu
      subst this
      exact dictGet_insert_self s.pks name ((s.g ^ sk) % s.p)
  · unfold names_nodup
    simp only [List.map_append]
    rw [List.nodup_append]
    refine ⟨hnd, by simp [mkUser], ?_⟩
    intro a ha hb
    simp [mkUser] at hb
    rcases List.mem_map.mp ha with ⟨u, hu, rfl⟩
    exact hfresh u hu hb

lemma inv_preserved_getNewSk (s : ElGamal) (name : String) (draw : Nat)
    (hinv : pk_invariant s) (hnd : names_nodup s) :
    pk_invariant (s.get_new_sk name draw).2 ∧
    names_nodup (s.get_new_sk name draw).2 := by
  unfold ElGamal.get_new_sk
  split
  · exact ⟨hinv, hnd⟩
  split
  · exact ⟨hinv, hnd⟩
  exact inv_preserved_rotate s name draw hinv hnd

lemma inv_preserved_encryptChar (s : ElGamal) (src dst : String) (m d : Nat)
    (hinv : pk_invariant s) (hnd : names_nodup s) :
    pk_invariant (s.encrypt_char src dst m d).2 ∧
    names_nodup (s.encrypt_char src dst m d).2 := by
  rcases encrypt_char_state_cases s src dst m d with h | h <;> rw [h]
  · exact ⟨hinv, hnd⟩
  · exact inv_preserved_rotate s src d hinv hnd

lemma inv_preserved_encryptLoop (src dst : String) : ∀ (cs ds : List Nat)
    (s : ElGamal), pk_invariant s → names_nodup s →
    pk_invariant (ElGamal.encrypt_loop s src dst cs ds).2 ∧
    names_nodup (ElGamal.encrypt_loop s src dst cs ds).2 := by
  intro cs
  induction cs with
  | nil => intro ds s hinv hnd; exact ⟨hinv, hnd⟩
  | cons c cs ih =>
    intro ds s hinv hnd
    cases ds with
    | nil => exact ⟨hinv, hnd⟩
    | cons d ds =>
      simp only [ElGamal.encrypt_loop]
      have h1 := inv_preserved_encryptChar s src dst c d hinv hnd
      rcases hec : s.encrypt_char src dst c d with ⟨res, s1⟩
      rw [hec] at h1
      cases res with
      | error e => exact h1
      | ok cc =>
        simp only []
        have h2 := ih ds s1 h1.1 h1.2
        rcases hloop : ElGamal.encrypt_loop s1 src dst cs ds with ⟨res2, s2⟩
        rw [hloop] at h2
        cases res2 with
        | error e => exact h2
        | ok rest => exact h2

lemma inv_preserved_sendMessage (s : ElGamal) (src dst : String)
    (m draws : List Nat) (hinv : pk_invariant s) (hnd : names_nodup s) :
    pk_invariant (s.send_message src dst m draws).2 ∧
    names_nodup (s.send_message src dst m draws).2 := by
  unfold ElGamal.send_message
  split
  · exact ⟨hinv, hnd⟩
  split
  · exact ⟨hinv, hnd⟩
  split
  · exact ⟨hinv, hnd⟩
  split
  · exact ⟨hinv, hnd⟩
  split
  · exact ⟨hinv, hnd⟩
  split
  · exact ⟨hinv, hnd⟩
  have h1 := inv_preserved_encryptLoop src dst m draws s hinv hnd
  rcases hloop : ElGamal.encrypt_loop s src dst m draws with ⟨res, s1⟩
  rw [hloop] at h1
  cases res with
  | error e => exact h1
  | ok chars =>
    simp only []
    constructor
    · intro u hu
      simp only [] at hu ⊢
      exact invariant_update_logs s1.g s1.p s1.pks src (sendLogUpdate m dst)
        (fun u => ⟨rfl, rfl⟩) s1.users h1.1 u hu
    · unfold names_nodup
      simp only []
      rw [map_updateFirst_eq User.name s1.users src (sendLogUpdate m dst)
        (fun u => rfl)]
      exact h1.2

lemma inv_preserved_applyOp (s : ElGamal) (op : Op)
    (hinv : pk_invariant s) (hnd : names_nodup s)
    (hok : match op with
           | .addUser name _ => ∀ u ∈ s.users, u.name ≠ name
           | _ => True) :
    pk_invariant (applyOp s op) ∧ names_nodup (applyOp s op) := by
  cases op with
  | addUser name sk => exact inv_preserved_addUser s name sk hinv hnd hok
  | getNewSk name sk => exact inv_preserved_getNewSk s name sk hinv hnd
  | encryptChar src dst m sk => exact inv_preserved_encryptChar s src dst m sk hinv hnd
  | sendMessage src dst m sks => exact inv_preserved_sendMessage s src dst m sks hinv hnd

/-- C6 counterexample: registering the same name twice (allowed by the
reference — there is no duplicate guard) overwrites the public-key map
entry while both user records remain, so the first `"A"` user's key no
longer matches the map: the invariant fails after a legal operation
sequence. -/
theorem pk_invariant_counterexample :
    ¬ pk_invariant (runOps ⟨7, 3, [], [], 0, [], true⟩
      [Op.addUser "A" 1, Op.addUser "A" 2]) := by decide

/-- C6 (amended): provided no two registered users ever share a name
(every `addUser` uses a fresh name — the duplicate-registration loophole
is excluded), the KeyPair invariant `pks[name] = g^sk mod p` holds for
every registered user and is preserved by every sequence of the
key-mutating operations `add_user`, `get_new_sk`, `encrypt_char` and
`send_message`, whether they succeed or raise. -/
theorem pk_invariant_preserved (s : ElGamal) (ops : List Op)
    (hinv : pk_invariant s) (hnd : names_nodup s) (hok : ok_ops s ops) :
    pk_invariant (runOps s ops) ∧ names_nodup (runOps s ops) := by
  induction ops generalizing s with
  | nil => exact ⟨hinv, hnd⟩
  | cons op rest ih =>
    have h1 := inv_preserved_applyOp s op hinv hnd hok.1
    exact ih (applyOp s op) h1.1 h1.2 hok.2

/-- Witness for C6 (amended): a fresh registration, a rotation and a send
over `p = 7, g = 3` keep the invariant. -/
theorem pk_invariant_preserved_witness :
    pk_invariant (runOps ⟨7, 3, [], [], 0, [], true⟩
      [Op.addUser "A" 1, Op.addUser "B" 2, Op.getNewSk "A" 3,
       Op.sendMessage "A" "B" [4] [5]]) ∧
    names_nodup (runOps ⟨7, 3, [], [], 0, [], true⟩
      [Op.addUser "A" 1, Op.addUser "B" 2, Op.getNewSk "A" 3,
       Op.sendMessage "A" "B" [4] [5]]) :=
  pk_invariant_preserved ⟨7, 3, [], [], 0, [], true⟩
    [Op.addUser "A" 1, Op.addUser "B" 2, Op.getNewSk "A" 3,
     Op.sendMessage "A" "B" [4] [5]]
    (by decide) (by decide) (by decide)

/-! ### Claim theorems: the interception scenario (C4) -/

lemma gen257 : is_valid_generator 257 3 := by decide

/-- C4: with `p = 257` and `g = 3`, after registering `"Alice"` and
`"Bob"` and sending `"Hi"` (code points `[72, 105]`) from Alice to Bob,
interception with the brute-force attack returns the plaintext `"Hi"` and
leaves the interceptor's log containing exactly the one record
`("Alice", "Bob", "Hi")` — the attack solves the discrete log of the
recipient's current public key and decrypts every symbol with the
recovered key.  The hypotheses bound the four `randint(1, p-1)` draws. -/
theorem interception_scenario (ska skb k1 k2 : Nat)
    (h1 : 1 ≤ ska ∧ ska ≤ 256) (h2 : 1 ≤ skb ∧ skb ≤ 256)
    (h3 : 1 ≤ k1 ∧ k1 ≤ 256) (h4 : 1 ≤ k2 ∧ k2 ≤ 256) :
    runScenario ska skb k1 k2
      = some ([72, 105], [("Alice", "Bob", [72, 105])]) := by
  have e0 : mkElGamal 257 3 true
      = Except.ok ⟨257, 3, [], [], 0, [], true⟩ := by decide
  have e1 : (⟨257, 3, [], [], 0, [], true⟩ : ElGamal).add_user "Alice" ska
      = (Except.ok (), ⟨257, 3, [("Alice", 3 ^ ska % 257)],
          [mkUser "Alice" ska], 1, [], true⟩) := rfl
  have e2 : (⟨257, 3, [("Alice", 3 ^ ska % 257)], [mkUser "Alice" ska], 1,
        [], true⟩ : ElGamal).add_user "Bob" skb
      = (Except.ok (), ⟨257, 3,
          [("Alice", 3 ^ ska % 257), ("Bob", 3 ^ skb % 257)],
          [mkUser "Alice" ska, mkUser "Bob" skb], 2, [], true⟩) := rfl
  have e3 : (⟨257, 3, [("Alice", 3 ^ ska % 257), ("Bob", 3 ^ skb % 257)],
        [mkUser "Alice" ska, mkUser "Bob" skb], 2, [], true⟩ :
          ElGamal).send_message "Alice" "Bob" [72, 105] [k1, k2]
      = (Except.ok ("Alice",
          [(3 ^ k1 % 257, (72 * (3 ^ skb % 257) ^ k1) % 257),
           (3 ^ k2 % 257, (105 * (3 ^ skb % 257) ^ k2) % 257)]),
         ⟨257, 3, [("Alice", 3 ^ k2 % 257), ("Bob", 3 ^ skb % 257)],
          [⟨"Alice", k2, [], 0, [[72, 105]], 1, ["Bob"]⟩, mkUser "Bob" skb],
          2,
          [("Bob", ("Alice",
            [(3 ^ k1 % 257, (72 * (3 ^ skb % 257) ^ k1) % 257),
             (3 ^ k2 % 257, (105 * (3 ^ skb % 257) ^ k2) % 257)]))],
          true⟩) := rfl
  have hbf : brute_force 257 3 (3 ^ skb % 257) = (skb : Int) :=
    brute_force_solves 257 3 skb gen257 h2.1 (by omega)
  have hd1 : ((72 * (3 ^ skb % 257) ^ k1) % 257 *
      get_inverse ((3 ^ k1 % 257) ^ skb % 257) 257) % 257 = 72 :=
    elgamal_attacker_roundtrip 257 3 k1 skb 72 prime257 (by decide) (by decide)
  have hd2 : ((105 * (3 ^ skb % 257) ^ k2) % 257 *
      get_inverse ((3 ^ k2 % 257) ^ skb % 257) 257) % 257 = 105 :=
    elgamal_attacker_roundtrip 257 3 k2 skb 105 prime257 (by decide) (by decide)
  unfold runScenario
  rw [e0]
  simp only []
  rw [e1]
  simp only []
  rw [e2]
  simp only []
  rw [e3]
  simp only []
  unfold intercept_message
  simp only []
  rw [show ([("Bob", ("Alice",
      [(3 ^ k1 % 257, (72 * (3 ^ skb % 257) ^ k1) % 257),
       (3 ^ k2 % 257, (105 * (3 ^ skb % 257) ^ k2) % 257)]))] :
      List (String × (String × List (Nat × Nat)))).getLast?
    = some ("Bob", ("Alice",
      [(3 ^ k1 % 257, (72 * (3 ^ skb % 257) ^ k1) % 257),
       (3 ^ k2 % 257, (105 * (3 ^ skb % 257) ^ k2) % 257)])) from rfl]
  simp only []
  rw [show (⟨257, 3, [("Alice", 3 ^ k2 % 257), ("Bob", 3 ^ skb % 257)],
        [⟨"Alice", k2, [], 0, [[72, 105]], 1, ["Bob"]⟩, mkUser "Bob" skb],
        2,
        [("Bob", ("Alice",
          [(3 ^ k1 % 257, (72 * (3 ^ skb % 257) ^ k1) % 257),
           (3 ^ k2 % 257, (105 * (3 ^ skb % 257) ^ k2) % 257)]))],
        true⟩ : ElGamal).get_user_pk "Bob"
    = Except.ok (3 ^ skb % 257) from rfl]
  simp only [run_attack]
  rw [hbf]
  simp only [List.map]
  rw [hd1, hd2]
  rfl

/-- Witness for C4 at the concrete draws `ska = 5, skb = 7, k1 = 11,
k2 = 13`. -/
theorem interception_scenario_witness :
    runScenario 5 7 11 13 = some ([72, 105], [("Alice", "Bob", [72, 105])]) :=
  interception_scenario 5 7 11 13 (by decide) (by decide) (by decide)
    (by decide)
